import Mathlib

/-
  Verification of mapper-prefix-stripper
  (src/mapper_prefix_stripper/mapper.py, class PrefixStripperMapper).

  Field names and prefixes are Python strings, modelled as lists of
  characters; Python dicts with insertion-order semantics are modelled as
  association lists with an insert that overwrites the value at an
  existing key in place and appends fresh keys at the end.
-/

set_option autoImplicit false

namespace MapperPrefixStripper

/-- A Python string (field name or prefix), as its sequence of characters. -/
abbrev Name := List Char

/-- Python dict assignment `d[k] = v`: overwrite the value at an existing
key (keeping its position), else append the new pair at the end. -/
def dictInsert {α : Type} (k : Name) (v : α) : List (Name × α) → List (Name × α)
  | [] => [(k, v)]
  | (k₁, v₁) :: rest => if k₁ = k then (k, v) :: rest else (k₁, v₁) :: dictInsert k v rest

/-- Python dict lookup `d.get(k)`: value at the first (hence only) entry
with key `k`. -/
def dictGet {α : Type} (k : Name) : List (Name × α) → Option α
  | [] => none
  | (k₁, v₁) :: rest => if k₁ = k then some v₁ else dictGet k rest

/-- `self.config.get("strip_prefixes", [])`: the configured prefix list,
defaulting to the empty list when the key is absent. -/
def configPrefixes (cfg : Option (List Name)) : List Name :=
  cfg.getD []

/-- `PrefixStripperMapper.strip_prefix`: iterate the prefixes in order;
on the first `field.startswith(prefix)`, return `field[len(prefix):]`;
if none matches, return `field` unchanged. -/
def strip_prefix (field : Name) : List Name → Name
  | [] => field
  | p :: rest =>
      if p.isPrefixOf field then field.drop p.length else strip_prefix field rest

/-- The loop body shared by `map_schema_message` and `map_record_message`:
starting from the fresh dict `{}`, insert `(strip_prefix field, value)` for
each `(field, value)` pair in iteration order. -/
def rewriteFields {α : Type} (prefixes : List Name) (fields : List (Name × α)) :
    List (Name × α) :=
  fields.foldl (fun acc fv => dictInsert ( strip_prefix fv.1 prefixes) fv.2 acc) []

/-- Error raised when a SCHEMA message lacks `schema.properties` or a
RECORD message lacks `record` as a mapping (the spec's
`MalformedMessageError`; in the Python source the dict access itself
raises there). -/
inductive MapError : Type
  | malformedMessage
  deriving DecidableEq, Repr

/-- A SCHEMA message: its `schema.properties` mapping (`none` when the
message lacks it) and, opaquely, every other field of the message
(stream name, key properties, the rest of the `schema` object, ...),
which the mapper never touches. -/
structure SchemaMessage (α σ : Type) where
  properties : Option (List (Name × α))
  rest : σ
  deriving DecidableEq, Repr

/-- A RECORD message: its `record` mapping (`none` when the message lacks
it) and, opaquely, every other field (stream name, timestamps, version
markers, ...). -/
structure RecordMessage (α ρ : Type) where
  record : Option (List (Name × α))
  rest : ρ
  deriving DecidableEq, Repr

/-- `PrefixStripperMapper.map_schema_message`: rebuild
`schema.properties` by stripping each field name, leave the rest of the
message alone, and yield exactly one schema message. A message without
the `properties` mapping fails. -/
def map_schema_message {α σ : Type} (cfg : Option (List Name))
    (m : SchemaMessage α σ) : Except MapError (List (SchemaMessage α σ)) :=
  match m.properties with
  | none => .error .malformedMessage
  | some props =>
      .ok [{ m with properties := some (rewriteFields (configPrefixes cfg) props) }]

/-- `PrefixStripperMapper.map_record_message`: rebuild the `record`
mapping by stripping each field name, leave the rest of the message
alone, and yield exactly one record message. A message without the
`record` mapping fails. -/
def map_record_message {α ρ : Type} (cfg : Option (List Name))
    (m : RecordMessage α ρ) : Except MapError (List (RecordMessage α ρ)) :=
  match m.record with
  | none => .error .malformedMessage
  | some r =>
      .ok [{ m with record := some (rewriteFields (configPrefixes cfg) r) }]

/-- `PrefixStripperMapper.map_state_message`: yield the state message
unchanged (its payload is opaque to the mapper). -/
def map_state_message {β : Type} (_cfg : Option (List Name)) (m : β) : List β :=
  [m]

/-- `PrefixStripperMapper.map_activate_version_message`: yield the
activate-version message unchanged. -/
def map_activate_version_message {β : Type} (_cfg : Option (List Name)) (m : β) :
    List β :=
  [m]

/- ### Helper lemmas -/

theorem strip_prefix_nil (f : Name) : strip_prefix f [] = f := rfl

theorem strip_prefix_cons (f p : Name) (P : List Name) :
    strip_prefix f (p :: P) =
      if p.isPrefixOf f then f.drop p.length else strip_prefix f P := rfl

/-- Evaluating the loop at the first matching index. -/
theorem strip_prefix_of_first_match (f : Name) (P : List Name) (i : Nat)
    (hi : i < P.length)
    (hmatch : (P.get ⟨i, hi⟩).isPrefixOf f = true)
    (hfirst : ∀ j : Fin P.length, (j : Nat) < i → (P.get j).isPrefixOf f = false) :
    strip_prefix f P = f.drop (P.get ⟨i, hi⟩).length := by
  induction P generalizing i with
  | nil => exact absurd hi (Nat.not_lt_zero i)
  | cons p P ih =>
      cases i with
      | zero =>
          simp only [List.get] at hmatch
          simp [strip_prefix_cons, hmatch]
      | succ i =>
          have hp : p.isPrefixOf f = false := by
            have := hfirst ⟨0, Nat.zero_lt_succ _⟩ (Nat.succ_pos i)
            simpa using this
          have hi' : i < P.length := Nat.lt_of_succ_lt_succ hi
          have hfirst' : ∀ j : Fin P.length, (j : Nat) < i →
              (P.get j).isPrefixOf f = false := by
            intro j hj
            have := hfirst ⟨j + 1, Nat.succ_lt_succ j.isLt⟩ (Nat.succ_lt_succ hj)
            simpa using this
          have hmatch' : (P.get ⟨i, hi'⟩).isPrefixOf f = true := by
            simpa using hmatch
          have := ih i hi' hmatch' hfirst'
          simpa [strip_prefix_cons, hp] using this

/-- When nothing in the list matches, the loop falls through. -/
theorem strip_prefix_of_no_match (f : Name) (P : List Name)
    (h : ∀ p ∈ P, p.isPrefixOf f = false) :
    strip_prefix f P = f := by
  induction P with
  | nil => rfl
  | cons p P ih =>
      have hp := h p (List.mem_cons_self p P)
      have hP : ∀ q ∈ P, q.isPrefixOf f = false := fun q hq => h q (List.mem_cons_of_mem p hq)
      simp [strip_prefix_cons, hp, ih hP]

/- ### C1 -/

/-- C1 counterexample: the claim's example is wrong on the code. With
`P = ["a_", "ab_"]`, the prefix `"a_"` does NOT match the field
`"ab_x"` (its second character is `b`, not `_`), so the first matching
prefix is `"ab_"` and the result is `"x"`, not the claimed `"b_x"`. -/
theorem strip_prefix_scenario4_false :
    strip_prefix ("ab_x".toList) ["a_".toList, "ab_".toList] = "x".toList ∧
      strip_prefix ("ab_x".toList) ["a_".toList, "ab_".toList] ≠ "b_x".toList := by
  constructor
  · rfl
  · decide

/-- C1 (amended): `strip_prefix` iterates the prefix list in order and
removes the first prefix that `field` starts with, dropping exactly its
length of characters; the first match in list order wins even when a
later listed prefix also matches and is longer or shorter. (The claim's
example input `"ab_x"` with `P = ["a_", "ab_"]` gives `"x"`, since
`"a_"` does not match there and `"ab_"` is the first match.) -/
theorem strip_prefix_first_in_order_wins (f : Name) (P : List Name) (i : Nat)
    (hi : i < P.length)
    (hmatch : (P.get ⟨i, hi⟩).isPrefixOf f = true)
    (hfirst : ∀ j : Fin P.length, (j : Nat) < i → (P.get j).isPrefixOf f = false) :
    strip_prefix f P = f.drop (P.get ⟨i, hi⟩).length :=
  strip_prefix_of_first_match f P i hi hmatch hfirst

/-- C1 witness: with prefixes `["a_", "a_b_"]` and field `"a_b_x"`, both
prefixes match but the first-listed `"a_"` wins, giving `"b_x"`. -/
theorem strip_prefix_first_in_order_wins_witness :
    strip_prefix ("a_b_x".toList) ["a_".toList, "a_b_".toList] = "b_x".toList := by
  have h := strip_prefix_first_in_order_wins ("a_b_x".toList)
    ["a_".toList, "a_b_".toList] 0 (by decide) (by decide)
    (fun j hj => absurd hj (Nat.not_lt_zero _))
  simpa using h

/- ### C2 -/

/-- C2: when no configured prefix is a literal prefix of the field, the
field passes through unchanged; in particular the empty prefix list, and
the absent `strip_prefixes` key (which defaults to the empty list), are
no-ops. -/
theorem strip_prefix_no_match_id (f : Name) (P : List Name)
    (h : ∀ p ∈ P, p.isPrefixOf f = false) :
    strip_prefix f P = f ∧ strip_prefix f [] = f ∧
      strip_prefix f (configPrefixes none) = f := by
  exact ⟨strip_prefix_of_no_match f P h, rfl, rfl⟩

/-- C2 witness: neither `"meta_"` nor `"pre_"` is a prefix of `"name"`,
so `"name"` is unchanged. -/
theorem strip_prefix_no_match_id_witness :
    strip_prefix ("name".toList) ["meta_".toList, "pre_".toList] = "name".toList := by
  have h := strip_prefix_no_match_id ("name".toList)
    ["meta_".toList, "pre_".toList] (by decide)
  exact h.1

/- ### Dict lemmas -/

theorem mem_dictInsert {α : Type} (kv : Name × α) (k : Name) (v : α)
    (d : List (Name × α)) (h : kv ∈ dictInsert k v d) : kv = (k, v) ∨ kv ∈ d := by
  induction d with
  | nil => simpa [dictInsert] using h
  | cons hd tl ih =>
      obtain ⟨k₁, v₁⟩ := hd
      by_cases hk : k₁ = k
      · simp only [dictInsert, if_pos hk] at h
        rcases List.mem_cons.mp h with h | h
        · exact Or.inl h
        · exact Or.inr (List.mem_cons_of_mem _ h)
      · simp only [dictInsert, if_neg hk] at h
        rcases List.mem_cons.mp h with h | h
        · exact Or.inr (h ▸ List.mem_cons_self _ _)
        · rcases ih h with h | h
          · exact Or.inl h
          · exact Or.inr (List.mem_cons_of_mem _ h)

theorem dictGet_dictInsert_same {α : Type} (k : Name) (v : α) (d : List (Name × α)) :
    dictGet k (dictInsert k v d) = some v := by
  induction d with
  | nil => simp [dictInsert, dictGet]
  | cons hd tl ih =>
      obtain ⟨k₁, v₁⟩ := hd
      by_cases hk : k₁ = k
      · simp [dictInsert, if_pos hk, dictGet]
      · simp [dictInsert, if_neg hk, dictGet, hk, ih]

theorem dictGet_dictInsert_other {α : Type} (k k₁ : Name) (v : α)
    (d : List (Name × α)) (hne : k ≠ k₁) :
    dictGet k₁ (dictInsert k v d) = dictGet k₁ d := by
  induction d with
  | nil => simp [dictInsert, dictGet, hne]
  | cons hd tl ih =>
      obtain ⟨k₂, v₂⟩ := hd
      by_cases hk : k₂ = k
      · subst hk
        simp [dictInsert, dictGet, hne]
      · simp only [dictInsert, if_neg hk]
        by_cases hk₁ : k₂ = k₁
        · simp [dictGet, hk₁]
        · simp [dictGet, hk₁, ih]

/-- Membership in the fold that rebuilds a mapping: every pair of the
result either came from the accumulator or is `(g field, value)` for an
input pair `(field, value)`. -/
theorem mem_foldl_dictInsert {α : Type} (g : Name → Name) (kv : Name × α)
    (l acc : List (Name × α))
    (h : kv ∈ l.foldl (fun acc fv => dictInsert (g fv.1) fv.2 acc) acc) :
    kv ∈ acc ∨ ∃ fv ∈ l, kv = (g fv.1, fv.2) := by
  induction l generalizing acc with
  | nil => exact Or.inl h
  | cons hd tl ih =>
      simp only [List.foldl_cons] at h
      rcases ih (dictInsert (g hd.1) hd.2 acc) h with h | h
      · rcases mem_dictInsert kv (g hd.1) hd.2 acc h with h | h
        · exact Or.inr ⟨hd, List.mem_cons_self _ _, h⟩
        · exact Or.inl h
      · obtain ⟨fv, hfv, hkv⟩ := h
        exact Or.inr ⟨fv, List.mem_cons_of_mem _ hfv, hkv⟩

/-- Looking up a key after the rebuild fold: the result is the value of
the last input pair whose rewritten key is `k`, falling back to the
accumulator when no input pair rewrites to `k`. -/
theorem dictGet_foldl_dictInsert {α : Type} (P : List Name) (k : Name)
    (l acc : List (Name × α)) :
    dictGet k (l.foldl
        (fun acc fv => dictInsert ( strip_prefix fv.1 P) fv.2 acc) acc) =
      ((List.getLast? (l.filter (fun fv => decide ( strip_prefix fv.1 P = k)))).map
        (fun fv => some fv.2)).getD (dictGet k acc) := by
  induction l generalizing acc with
  | nil => rfl
  | cons hd tl ih =>
      simp only [List.foldl_cons]
      rw [ih]
      by_cases hhd : strip_prefix hd.1 P = k
      · rcases htl : tl.filter (fun fv => decide ( strip_prefix fv.1 P = k)) with _ | ⟨x, xs⟩
        · simp [List.filter_cons, hhd, htl, dictGet_dictInsert_same]
        · have hne : (x :: xs).getLast? ≠ none := by
            simp [List.getLast?_eq_none_iff]
          obtain ⟨y, hy⟩ := Option.ne_none_iff_exists'.mp hne
          simp [List.filter_cons, hhd, htl, List.getLast?_cons_cons, hy]
      · rcases htl : tl.filter (fun fv => decide ( strip_prefix fv.1 P = k)) with _ | ⟨x, xs⟩
        · simp [List.filter_cons, hhd, htl,
            dictGet_dictInsert_other ( strip_prefix hd.1 P) k hd.2 acc hhd]
        · have hne : (x :: xs).getLast? ≠ none := by
            simp [List.getLast?_eq_none_iff]
          obtain ⟨y, hy⟩ := Option.ne_none_iff_exists'.mp hne
          simp [List.filter_cons, hhd, htl, hy]

/-- Specialisation of the fold lookup to `rewriteFields`. -/
theorem dictGet_rewriteFields {α : Type} (P : List Name) (k : Name)
    (fields : List (Name × α)) :
    dictGet k (rewriteFields P fields) =
      (List.getLast?
        (fields.filter (fun fv => decide ( strip_prefix fv.1 P = k)))).map Prod.snd := by
  rw [rewriteFields, dictGet_foldl_dictInsert]
  cases (fields.filter (fun fv => decide ( strip_prefix fv.1 P = k))).getLast? with
  | none => rfl
  | some y => rfl

/-- Every pair of the rebuilt mapping is `( strip_prefix field, value)`
for some input pair `(field, value)` : values are never altered. -/
theorem mem_rewriteFields {α : Type} (P : List Name) (kv : Name × α)
    (fields : List (Name × α)) (h : kv ∈ rewriteFields P fields) :
    ∃ fv ∈ fields, kv.1 = strip_prefix fv.1 P ∧ kv.2 = fv.2 := by
  rcases mem_foldl_dictInsert (fun f => strip_prefix f P) kv fields [] h with h | h
  · simp at h
  · obtain ⟨fv, hfv, hkv⟩ := h
    exact ⟨fv, hfv, by simp [hkv], by simp [hkv]⟩

/-- Every input pair's rewritten key is present in the rebuilt mapping. -/
theorem rewriteFields_key_present {α : Type} (P : List Name) (fv : Name × α)
    (fields : List (Name × α)) (h : fv ∈ fields) :
    (dictGet ( strip_prefix fv.1 P) (rewriteFields P fields)).isSome = true := by
  rw [dictGet_rewriteFields]
  have hmem : fv ∈ fields.filter
      (fun fv₁ => decide ( strip_prefix fv₁.1 P = strip_prefix fv.1 P)) :=
    List.mem_filter.mpr ⟨h, by simp⟩
  rcases hf : fields.filter
      (fun fv₁ => decide ( strip_prefix fv₁.1 P = strip_prefix fv.1 P)) with _ | ⟨x, xs⟩
  · rw [hf] at hmem
    exact absurd hmem (List.not_mem_nil fv)
  · have hne : (x :: xs).getLast? ≠ none := by
      simp [List.getLast?_eq_none_iff]
    obtain ⟨y, hy⟩ := Option.ne_none_iff_exists'.mp hne
    rw [hf]
    simp [hy]

/- ### C3 -/

/-- C3: on a SCHEMA message carrying a `properties` mapping,
`map_schema_message` yields exactly one message whose properties are the
fresh mapping built by inserting, in iteration order, each field's
stripped name paired with its unaltered schema value, and whose every
other field is unchanged; moreover every pair of the fresh mapping is
some input pair's stripped name with that pair's unaltered value, and
every input pair's stripped name is present in the fresh mapping. -/
theorem map_schema_message_rewrites {α σ : Type} (cfg : Option (List Name))
    (props : List (Name × α)) (s : σ) :
    map_schema_message cfg ⟨some props, s⟩ =
      .ok [⟨some (rewriteFields (configPrefixes cfg) props), s⟩] ∧
    (∀ kv ∈ rewriteFields (configPrefixes cfg) props,
      ∃ fv ∈ props, kv.1 = strip_prefix fv.1 (configPrefixes cfg) ∧ kv.2 = fv.2) ∧
    (∀ fv ∈ props,
      (dictGet ( strip_prefix fv.1 (configPrefixes cfg))
        (rewriteFields (configPrefixes cfg) props)).isSome = true) := by
  refine ⟨rfl, ?_, ?_⟩
  · intro kv hkv
    exact mem_rewriteFields _ kv props hkv
  · intro fv hfv
    exact rewriteFields_key_present _ fv props hfv

/-- C3 witness: stripping `"meta_"`, the properties
`{"meta_id": 1, "name": 2}` become `{"id": 1, "name": 2}` with values
untouched and the rest of the message (here `0`) unchanged. -/
theorem map_schema_message_rewrites_witness :
    map_schema_message (some ["meta_".toList])
        (⟨some [("meta_id".toList, 1), ("name".toList, 2)], 0⟩ : SchemaMessage Nat Nat) =
      .ok [⟨some [("id".toList, 1), ("name".toList, 2)], 0⟩] := by
  have h := (map_schema_message_rewrites (some ["meta_".toList])
    [("meta_id".toList, 1), ("name".toList, 2)] (0 : Nat)).1
  exact h.trans rfl

/- ### C4 -/

/-- C4: on a RECORD message carrying a `record` mapping,
`map_record_message` yields exactly one message whose record is the
fresh mapping built by renaming each field key via the prefix strip with
its value unaltered, and whose every other field (stream name,
timestamps, version markers) is unchanged; every pair of the fresh
mapping is some input pair's stripped name with that pair's value, and
every input pair's stripped name is present. -/
theorem map_record_message_rewrites {α ρ : Type} (cfg : Option (List Name))
    (fields : List (Name × α)) (r : ρ) :
    map_record_message cfg ⟨some fields, r⟩ =
      .ok [⟨some (rewriteFields (configPrefixes cfg) fields), r⟩] ∧
    (∀ kv ∈ rewriteFields (configPrefixes cfg) fields,
      ∃ fv ∈ fields, kv.1 = strip_prefix fv.1 (configPrefixes cfg) ∧ kv.2 = fv.2) ∧
    (∀ fv ∈ fields,
      (dictGet ( strip_prefix fv.1 (configPrefixes cfg))
        (rewriteFields (configPrefixes cfg) fields)).isSome = true) := by
  refine ⟨rfl, ?_, ?_⟩
  · intro kv hkv
    exact mem_rewriteFields _ kv fields hkv
  · intro fv hfv
    exact rewriteFields_key_present _ fv fields hfv

/-- C4 witness: stripping `"meta_"`, the record
`{"meta_id": 42, "name": 7}` becomes `{"id": 42, "name": 7}` with the
values and the rest of the message unchanged. -/
theorem map_record_message_rewrites_witness :
    map_record_message (some ["meta_".toList])
        (⟨some [("meta_id".toList, 42), ("name".toList, 7)], 0⟩ : RecordMessage Nat Nat) =
      .ok [⟨some [("id".toList, 42), ("name".toList, 7)], 0⟩] := by
  have h := (map_record_message_rewrites (some ["meta_".toList])
    [("meta_id".toList, 42), ("name".toList, 7)] (0 : Nat)).1
  exact h.trans rfl

/- ### C5 -/

/-- C5: STATE and ACTIVATE_VERSION messages pass through structurally
unchanged, whatever the `strip_prefixes` configuration is. -/
theorem state_activate_version_pass_through {β γ : Type}
    (cfg : Option (List Name)) (st : β) (av : γ) :
    map_state_message cfg st = [st] ∧
      map_activate_version_message cfg av = [av] :=
  ⟨rfl, rfl⟩

/- ### C6 -/

/-- C6: looking up any key in a rebuilt schema or record mapping returns
the value of the LAST input pair (in iteration order) whose stripped
name equals that key — later colliding entries overwrite earlier ones —
and `none` exactly when no input pair strips to the key, so no other
field is affected; no error is raised: both rewrites succeed whenever
the mapping is present. -/
theorem collision_last_write_wins {α σ ρ : Type} (cfg : Option (List Name))
    (props : List (Name × α)) (s : σ) (r : ρ) (k : Name) :
    dictGet k (rewriteFields (configPrefixes cfg) props) =
      (List.getLast? (props.filter
        (fun fv => decide ( strip_prefix fv.1 (configPrefixes cfg) = k)))).map Prod.snd ∧
    (∃ out, map_schema_message cfg ⟨some props, s⟩ = .ok out) ∧
    (∃ out, map_record_message cfg ⟨some props, r⟩ = .ok out) :=
  ⟨dictGet_rewriteFields (configPrefixes cfg) k props, ⟨_, rfl⟩, ⟨_, rfl⟩⟩

/-- C6 witness: with prefix `"meta_"`, both `"meta_id"` and `"id"` strip
to `"id"`; the later entry's value `2` wins in the rebuilt mapping. -/
theorem collision_last_write_wins_witness :
    dictGet ("id".toList)
      (rewriteFields ["meta_".toList] [("meta_id".toList, 1), ("id".toList, 2)]) =
      some 2 := by
  have h := (collision_last_write_wins (σ := Nat) (ρ := Nat) (some ["meta_".toList])
    [("meta_id".toList, (1 : Nat)), ("id".toList, 2)] 0 0 ("id".toList)).1
  exact h.trans rfl

/- ### C7 -/

/-- C7: a SCHEMA message without the `schema.properties` mapping and a
RECORD message without the `record` mapping each make the corresponding
map operation fail with the malformed-message error, emitting no output
message. -/
theorem malformed_message_rejected {α σ ρ : Type} (cfg : Option (List Name))
    (s : σ) (r : ρ) :
    map_schema_message (α := α) cfg ⟨none, s⟩ = .error .malformedMessage ∧
      map_record_message (α := α) cfg ⟨none, r⟩ = .error .malformedMessage :=
  ⟨rfl, rfl⟩

/- ### C8 -/

/-- C8: on well-formed input of each of the four recognized kinds, every
`map_*` method yields exactly one output message. -/
theorem each_map_yields_exactly_one {α σ ρ β γ : Type} (cfg : Option (List Name))
    (props fields : List (Name × α)) (s : σ) (r : ρ) (st : β) (av : γ) :
    (map_schema_message cfg ⟨some props, s⟩).map List.length = .ok 1 ∧
    (map_record_message cfg ⟨some fields, r⟩).map List.length = .ok 1 ∧
    (map_state_message cfg st).length = 1 ∧
    (map_activate_version_message cfg av).length = 1 :=
  ⟨rfl, rfl, rfl, rfl⟩

/- ### C9 -/

/-- C9: if the prefix list holds the empty string at position `i`, then
every field matched by no earlier prefix passes through unchanged (the
empty string matches everything and removes zero characters), and the
prefixes after position `i` are never reached: the first `i + 1`
prefixes already determine the result. -/
theorem strip_prefix_empty_string_stops (f : Name) (P : List Name) (i : Nat)
    (hi : i < P.length) (hempty : P.get ⟨i, hi⟩ = [])
    (hfirst : ∀ j : Fin P.length, (j : Nat) < i → (P.get j).isPrefixOf f = false) :
    strip_prefix f P = f ∧ strip_prefix f (P.take (i + 1)) = f := by
  have hlen : (P.take (i + 1)).length = i + 1 := by
    rw [List.length_take]
    exact Nat.min_eq_left (Nat.succ_le_of_lt hi)
  constructor
  · have hmatch : (P.get ⟨i, hi⟩).isPrefixOf f = true := by
      rw [hempty]; cases f <;> rfl
    have h := strip_prefix_of_first_match f P i hi hmatch hfirst
    rw [hempty] at h
    simpa using h
  · have hi' : i < (P.take (i + 1)).length := by
      rw [hlen]; exact Nat.lt_succ_self i
    have hget : (P.take (i + 1)).get ⟨i, hi'⟩ = P.get ⟨i, hi⟩ := by
      simp [List.get_eq_getElem, List.getElem_take]
    have hmatch : ((P.take (i + 1)).get ⟨i, hi'⟩).isPrefixOf f = true := by
      rw [hget, hempty]; cases f <;> rfl
    have hfirst' : ∀ j : Fin (P.take (i + 1)).length, (j : Nat) < i →
        ((P.take (i + 1)).get j).isPrefixOf f = false := by
      intro j hj
      have hjP : (j : Nat) < P.length :=
        Nat.lt_of_lt_of_le (Nat.lt_of_lt_of_le j.isLt (Nat.le_of_eq hlen))
          (Nat.succ_le_of_lt hi)
      have hget' : (P.take (i + 1)).get j = P.get ⟨j, hjP⟩ := by
        simp [List.get_eq_getElem, List.getElem_take]
      rw [hget']
      exact hfirst ⟨j, hjP⟩ hj
    have h := strip_prefix_of_first_match f (P.take (i + 1)) i hi' hmatch hfirst'
    rw [hget, hempty] at h
    simpa using h

/-- C9 witness: with prefixes `["x_", "", "a_"]` and field `"abc"`, the
non-matching `"x_"` is skipped, the empty string matches and removes
nothing, and the later (matching) `"a_"` is never applied. -/
theorem strip_prefix_empty_string_stops_witness :
    strip_prefix ("abc".toList) ["x_".toList, "".toList, "a_".toList] = "abc".toList := by
  have h := (strip_prefix_empty_string_stops ("abc".toList)
    ["x_".toList, "".toList, "a_".toList] 1 (by decide) (by decide)
    (by decide)).1
  exact h

/- ### C10 -/

/-- C10: the result of `strip_prefix` is always a suffix of the field
(hence no longer than it), and at most one prefix is removed per call:
with `P = ["a_"]`, the field `"a_a_x"` becomes `"a_x"`, not `"x"`. -/
theorem strip_prefix_suffix_once (f : Name) (P : List Name) :
    strip_prefix f P <:+ f ∧ ( strip_prefix f P).length ≤ f.length ∧
      strip_prefix ("a_a_x".toList) ["a_".toList] = "a_x".toList := by
  have hsuf : strip_prefix f P <:+ f := by
    induction P with
    | nil => exact List.suffix_refl f
    | cons p P ih =>
        rw [strip_prefix_cons]
        by_cases hp : p.isPrefixOf f = true
        · simp only [hp, if_true]
          exact List.drop_suffix p.length f
        · simpa [hp] using ih
  exact ⟨hsuf, hsuf.length_le, rfl⟩

end MapperPrefixStripper
